import Mathlib

/-!
# ci-test-reporter-poc: shallow embedding of `main.go`

The program reads a Prow job description, derives an object prefix in the
`origin-ci-test` bucket, walks the objects listed under that prefix and builds
one JUnit document out of the per-step `finished.json` markers and the embedded
`e2e-report.xml` report.

Go strings are modelled as `List Char`: object names, URLs and arguments are
valid UTF-8, on which the byte-wise searches of Go and the character-wise ones
below agree.  Every string operation used by the program (`strings.Contains`,
`strings.Split`, `strings.TrimLeft`, `strings.TrimPrefix`, `strings.TrimSuffix`)
is translated below.  The remote collaborators (Prow, the object store, the
YAML and XML decoders) are fields of an environment record; every `log.Fatal`,
`panic` and nil dereference of the program is the `none` result of the
embedding.  The 10 second deadline of the listing is not modelled apart from
the failure of the store call it would cause.
-/

namespace CiTestReporter

/-- Go `string`, as the list of its characters. -/
abbrev Str := List Char

/-! ## The `strings` functions used by `main.go` -/

/-- Go `strings.HasPrefix(s, p)`. -/
def HasPrefix : Str → Str → Bool
  | _, [] => true
  | [], _ :: _ => false
  | c :: s, p :: ps => c == p && HasPrefix s ps

/-- Go `strings.HasSuffix(s, suffix)`. -/
def HasSuffix (s suffix : Str) : Bool :=
  HasPrefix s.reverse suffix.reverse

/-- Go `strings.Contains(s, substr)`: `substr` starts at some position of `s`. -/
def Contains : Str → Str → Bool
  | [], substr => HasPrefix [] substr
  | c :: s, substr => HasPrefix (c :: s) substr || Contains s substr

/-- The loop of Go `strings.Split` for a non-empty separator.  The input is
scanned from the left; `skip` counts the characters of an already matched
separator that are still to be dropped, `cur` is the piece collected since the
last separator.  At every position outside a matched separator the leftmost
match is taken, exactly as `strings.Index` followed by `s = s[m+len(sep):]`. -/
def splitLoop (sep : Str) : Str → Nat → Str → List Str
  | [], _, cur => [cur]
  | _ :: s, skip + 1, cur => splitLoop sep s skip cur
  | c :: s, 0, cur =>
    if HasPrefix (c :: s) sep then cur :: splitLoop sep s (sep.length - 1) []
    else splitLoop sep s 0 (cur ++ [c])

/-- Go `strings.Split(s, sep)`.  With an empty separator the string is cut
after every character. -/
def Split (s sep : Str) : List Str :=
  if sep = [] then s.map (fun c => [c]) else splitLoop sep s 0 []

/-- Go `strings.TrimLeft(s, cutset)`: drops every leading character that
occurs in `cutset`. -/
def TrimLeft (s cutset : Str) : Str :=
  s.dropWhile (fun c => cutset.contains c)

/-- Go `strings.TrimPrefix(s, p)`: drops `p` once when `s` starts with it. -/
def TrimPrefix (s p : Str) : Str :=
  if HasPrefix s p then s.drop p.length else s

/-- Go `strings.TrimSuffix(s, suffix)`: drops `suffix` once when `s` ends with it. -/
def TrimSuffix (s suffix : Str) : Str :=
  if HasSuffix s suffix then s.take (s.length - suffix.length) else s

/-! ## Constants of `main.go` -/

def bucketName : Str := "origin-ci-test".toList

def gcsBrowserURLPrefix : Str :=
  "https://gcsweb-ci.apps.ci.l2s4.p1.openshiftapps.com/gcs/origin-ci-test/".toList

def finishedFilename : Str := "finished.json".toList

def buildLogFilename : Str := "build-log.txt".toList

def junitFilename : Str := "e2e-report.xml".toList

/-- Go `types.SpecStatePassed.String()` of ginkgo. -/
def specStatePassed : Str := "passed".toList

/-- Go `types.SpecStateFailed.String()` of ginkgo. -/
def specStateFailed : Str := "failed".toList

/-! ## The JUnit data model (`reporters` of ginkgo)

Only the fields that `main.go` reads or writes are kept; the remaining fields
of the ginkgo structures keep their zero value in everything the program
builds.  The counters are Go `int` (64 bits).  The counters of the synthesized
suite grow by one per listed object and are kept as plain integers; the
additions of lines 143 to 145, one operand of which comes out of a report,
wrap around as Go does (`wrapInt`). -/

/-- The value a Go `int` holds after an addition whose exact result is `x`:
`x` brought back into the 64 bit two's complement range. -/
def wrapInt (x : Int) : Int :=
  (x + 9223372036854775808) % 18446744073709551616 - 9223372036854775808

structure JUnitProperty where
  Name : Str
  Value : Str
deriving DecidableEq

structure JUnitFailure where
  Message : Str
deriving DecidableEq

structure JUnitTestCase where
  Name : Str
  Status : Str
  Failure : Option JUnitFailure
  SystemErr : Str
deriving DecidableEq

structure JUnitTestSuite where
  Name : Str
  Tests : Int
  Failures : Int
  Errors : Int
  Properties : List JUnitProperty
  TestCases : List JUnitTestCase
deriving DecidableEq

structure JUnitTestSuites where
  Tests : Int
  Errors : Int
  Failures : Int
  TestSuites : List JUnitTestSuite
deriving DecidableEq

/-- The body of an `e2e-report.xml` object as `encoding/xml` reads it for a
`JUnitTestSuites` target: the `tests`, `errors` and `failures` attributes of
the root element (`none` for an attribute that is not written) and the
`testsuite` children in document order. -/
structure JUnitDocument where
  tests : Option Int
  errors : Option Int
  failures : Option Int
  suites : List JUnitTestSuite
deriving DecidableEq

/-- Go `metadata.Finished` of testgrid, reduced to the field the program reads:
`Passed *bool`, `none` being the nil pointer. -/
structure Finished where
  Passed : Option Bool
deriving DecidableEq

/-- Go `corev1.Container`, reduced to its `Args`. -/
structure Container where
  Args : List Str
deriving DecidableEq

/-- Go `v1.ProwJob`, reduced to `Spec.PodSpec.Containers` (`PodSpec` is a
pointer, `none` being nil) and `Status.URL`. -/
structure ProwJob where
  PodSpec : Option (List Container)
  URL : Str
deriving DecidableEq

/-! ## The collaborators of the program -/

/-- Everything the program obtains from outside.  `none` stands for the error
the Go call returns. -/
structure Env where
  /-- The result of `getProwJobYAML(jobID)` for the job of this run. -/
  getProwJobYAML : Option ProwJob
  /-- The names `bucketHandle.Objects` yields for a query prefix, in listing
  order; `none` when the iterator reports an error. -/
  listObjects : Str → Option (List Str)
  /-- The whole body of the object of that name (`NewReader` and the reads
  that follow); `none` when it cannot be opened or read. -/
  readObject : Str → Option Str
  /-- The result of `yaml.Unmarshal(data, &finished)`; `none` on a decoding error. -/
  unmarshalFinished : Str → Option Finished
  /-- The XML parse of an embedded report body; `none` on a decoding error. -/
  parseJUnit : Str → Option JUnitDocument

/-! ## `determineJobTarget` -/

/-- The three ways `determineJobTarget` ends: a returned target, a returned
error value, or the end of the process (`log.Fatal`, or a panic). -/
inductive TargetResult where
  | ok (jobTarget : Str)
  | error (msg : Str)
  | fatal
deriving DecidableEq

/-- The error text of `determineJobTarget`. -/
def targetErrorText : Str := "failed to determine job target".toList

/-- The `for _, arg := range ... Args` loop of `determineJobTarget`. -/
def scanArgs : List Str → TargetResult
  | [] => TargetResult.error targetErrorText
  | arg :: rest =>
    if Contains arg "--target".toList then
      match Split arg "=".toList with
      | [_, value] => TargetResult.ok value
      | _ => TargetResult.fatal
    else scanArgs rest

/-- Go `determineJobTarget(pjYAML)`.  A nil `PodSpec` or an empty container
list makes `pjYAML.Spec.PodSpec.Containers[0]` panic. -/
def determineJobTarget (pjYAML : ProwJob) : TargetResult :=
  match pjYAML.PodSpec with
  | some (c :: _) => scanArgs c.Args
  | _ => TargetResult.fatal

/-! ## `main` -/

/-- Lines 62 to 69 of `main`: the object prefix of a job, from its result URL
and its target.  `none` is the `log.Fatal` of line 66. -/
def deriveObjectPrefix (pjURL jobTarget : Str) : Option Str :=
  match Split pjURL bucketName with
  | [_, rest] => some (TrimLeft rest "/".toList ++ "/artifacts/".toList ++ jobTarget)
  | _ => none

/-- Go `downloadBuildLog(pathToStep)`; `none` is its `log.Fatal`. -/
def downloadBuildLog (env : Env) (pathToStep : Str) : Option Str :=
  env.readObject (pathToStep ++ buildLogFilename)

/-- Go `xml.NewDecoder(rc).Decode(rhtapJunitSuites)` once the body is parsed.
`encoding/xml` stores an attribute that is present into its field, replacing
what the field held, leaves the field of an absent attribute alone, and maps
every `testsuite` child to a new element at the end of the existing slice. -/
def decodeInto (doc : JUnitDocument) (agg : JUnitTestSuites) : JUnitTestSuites :=
  { Tests := doc.tests.getD agg.Tests
    Errors := doc.errors.getD agg.Errors
    Failures := doc.failures.getD agg.Failures
    TestSuites := agg.TestSuites ++ doc.suites }

/-- The two variables the loop of `main` updates. -/
structure LoopState where
  rhtapJunitSuites : JUnitTestSuites
  openshiftCiJunit : JUnitTestSuite
deriving DecidableEq

/-- Lines 43 and 44 of `main`. -/
def initialState : LoopState :=
  { rhtapJunitSuites := { Tests := 0, Errors := 0, Failures := 0, TestSuites := [] }
    openshiftCiJunit :=
      { Name := "openshift-ci job".toList, Tests := 0, Failures := 0, Errors := 0
        Properties := [], TestCases := [] } }

/-- Lines 109 to 140 of `main`: the body of `if strings.Contains(attrs.Name,
finishedFilename)`, given the bytes `data` read from the marker. -/
def processFinished (env : Env) (st : LoopState) (name filePath data : Str) :
    Option LoopState :=
  match Split filePath "/".toList with
  | [] => none
  | stepName :: _ =>
    let suite :=
      if Contains name "gather".toList then
        { st.openshiftCiJunit with
          Properties := st.openshiftCiJunit.Properties ++
            [{ Name := stepName
               Value := gcsBrowserURLPrefix ++ TrimSuffix name finishedFilename ++
                 "artifacts".toList }] }
      else st.openshiftCiJunit
    match env.unmarshalFinished data with
    | none => none
    | some finished =>
      match finished.Passed with
      | none => none
      | some true =>
        some { st with
          openshiftCiJunit :=
            { suite with
              TestCases := suite.TestCases ++
                [{ Name := stepName, Status := specStatePassed, Failure := none, SystemErr := [] }]
              Tests := suite.Tests + 1 } }
      | some false =>
        match downloadBuildLog env (TrimSuffix name finishedFilename) with
        | none => none
        | some buildLog =>
          some { st with
            openshiftCiJunit :=
              { suite with
                Failures := suite.Failures + 1
                TestCases := suite.TestCases ++
                  [{ Name := stepName, Status := specStateFailed
                     Failure := some { Message := stepName ++ " has failed".toList }
                     SystemErr := buildLog }]
                Tests := suite.Tests + 1 } }

/-- Lines 142 to 148 of `main`: the embedded report is decoded into the
aggregate after the counters of the synthesized suite were added to it. -/
def processReport (env : Env) (st : LoopState) (data : Str) : Option LoopState :=
  let agg : JUnitTestSuites :=
    { st.rhtapJunitSuites with
      Failures := wrapInt (st.rhtapJunitSuites.Failures + st.openshiftCiJunit.Failures)
      Errors := wrapInt (st.rhtapJunitSuites.Errors + st.openshiftCiJunit.Errors)
      Tests := wrapInt (st.rhtapJunitSuites.Tests + st.openshiftCiJunit.Tests) }
  match env.parseJUnit data with
  | none => none
  | some doc => some { st with rhtapJunitSuites := decodeInto doc agg }

/-- Lines 97 to 150 of `main`: one turn of the loop, for the listed object
`name`.  `none` is a `log.Fatal` or a panic of the turn. -/
def processObject (env : Env) (objectPrefix : Str) (st : LoopState) (name : Str) :
    Option LoopState :=
  if Contains name finishedFilename || Contains name junitFilename then
    match Split name objectPrefix with
    | [_, rest] =>
      let filePath := TrimPrefix rest "/".toList
      match env.readObject name with
      | none => none
      | some data =>
        if Contains name finishedFilename then processFinished env st name filePath data
        else processReport env st data
    | _ => none
  else some st

/-- The `for` loop of `main` over the listed names. -/
def mainLoop (env : Env) (objectPrefix : Str) : List Str → LoopState → Option LoopState
  | [], st => some st
  | name :: rest, st =>
    match processObject env objectPrefix st name with
    | none => none
    | some st1 => mainLoop env objectPrefix rest st1

/-- Line 154 of `main`: the synthesized suite is appended to the aggregate. -/
def appendSynthesized (st : LoopState) : JUnitTestSuites :=
  { st.rhtapJunitSuites with
    TestSuites := st.rhtapJunitSuites.TestSuites ++ [st.openshiftCiJunit] }

/-- Lines 85 to 154 of `main` for a given object prefix and listing: the
document handed to the XML encoder. -/
def aggregate (env : Env) (objectPrefix : Str) (listing : List Str) : Option JUnitTestSuites :=
  (mainLoop env objectPrefix listing initialState).map appendSynthesized

/-- Go `main` up to the encoding of `junit.xml`: the document that is written,
`none` when the process ends before. -/
def main (env : Env) : Option JUnitTestSuites :=
  match env.getProwJobYAML with
  | none => none
  | some pjYAML =>
    match determineJobTarget pjYAML with
    | TargetResult.ok jobTarget =>
      match deriveObjectPrefix pjYAML.URL jobTarget with
      | none => none
      | some objectPrefix =>
        match env.listObjects objectPrefix with
        | none => none
        | some listing => aggregate env objectPrefix listing
    | _ => none

/-! ## Notions the statements use -/

/-- Number of positions of `s` at which `substr` starts: how many times `s`
contains `substr`. -/
def occurrences (substr : Str) : Str → Nat
  | [] => if HasPrefix [] substr then 1 else 0
  | c :: s => (if HasPrefix (c :: s) substr then 1 else 0) + occurrences substr s

/-- The listed object is handled by the completion-marker branch of the loop
(the condition of line 109). -/
def isMarker (name : Str) : Bool :=
  Contains name finishedFilename

/-- The listed object reaches the decoding of an embedded report (the
condition of line 97 holds and the one of line 109 does not). -/
def isReport (name : Str) : Bool :=
  !Contains name finishedFilename && Contains name junitFilename

/-- A completion marker for which the test of line 113 holds: its whole object
name, the object prefix included, contains `gather`.  This is a test on
`attrs.Name`, not on the step name. -/
def gatherInObjectName (name : Str) : Bool :=
  isMarker name && Contains name "gather".toList

/-- The pass/fail boolean stored in the object `name`, when the object can be
read and decodes to a marker with a `passed` field. -/
def passedOf (env : Env) (name : Str) : Option Bool :=
  match env.readObject name with
  | none => none
  | some data =>
    match env.unmarshalFinished data with
    | none => none
    | some finished => finished.Passed

/-- The report document stored in the object `name`, when the object can be
read and parses. -/
def documentOf (env : Env) (name : Str) : Option JUnitDocument :=
  match env.readObject name with
  | none => none
  | some data => env.parseJUnit data

/-- The suites of the embedded reports of a listing, in listing order. -/
def embeddedSuites (env : Env) : List Str → List JUnitTestSuite
  | [] => []
  | name :: rest =>
    (if isReport name then
      match documentOf env name with
      | some doc => doc.suites
      | none => []
    else []) ++ embeddedSuites env rest

/-- A marker the loop can process: its name holds the object prefix once (the
check of line 99), its body decodes to a pass/fail boolean and, when that is
`false`, the build log next to it can be read. -/
def markerOk (env : Env) (objectPrefix name : Str) : Bool :=
  (Split name objectPrefix).length == 2 &&
    match passedOf env name with
    | none => false
    | some true => true
    | some false => (downloadBuildLog env (TrimSuffix name finishedFilename)).isSome

/-- The test case a step contributes: passed without detail, or failed with
the generated message and the build log. -/
def stepCase (stepName : Str) (passed : Bool) (buildLog : Str) : JUnitTestCase :=
  if passed then
    { Name := stepName, Status := "passed".toList, Failure := none, SystemErr := [] }
  else
    { Name := stepName, Status := "failed".toList
      Failure := some { Message := stepName ++ " has failed".toList }
      SystemErr := buildLog }

/-- What a successful marker turn does to the state, field by field. -/
def MarkerEffect (st st1 : LoopState) (name stepName : Str) (p : Bool) (log : Str) : Prop :=
  st1.rhtapJunitSuites = st.rhtapJunitSuites ∧
  st1.openshiftCiJunit.Name = st.openshiftCiJunit.Name ∧
  st1.openshiftCiJunit.Tests = st.openshiftCiJunit.Tests + 1 ∧
  st1.openshiftCiJunit.Failures = st.openshiftCiJunit.Failures + (if p then 0 else 1) ∧
  st1.openshiftCiJunit.Errors = st.openshiftCiJunit.Errors ∧
  st1.openshiftCiJunit.TestCases = st.openshiftCiJunit.TestCases ++ [stepCase stepName p log] ∧
  st1.openshiftCiJunit.Properties = st.openshiftCiJunit.Properties ++
    (if Contains name "gather".toList then
      [{ Name := stepName
         Value := gcsBrowserURLPrefix ++ TrimSuffix name finishedFilename ++ "artifacts".toList }]
    else [])

/-- The step a marker belongs to: the first `/`-separated segment of what
follows the object prefix in its name, one leading `/` dropped. -/
def stepNameOf (objectPrefix name : Str) : Str :=
  match Split name objectPrefix with
  | [_, rest] => (TrimPrefix rest "/".toList).takeWhile (fun d => d != '/')
  | _ => []

/-- A marker of a `gather` step, as the specification words it: the name of the
step the marker belongs to contains `gather`. -/
def isGatherStep (objectPrefix name : Str) : Bool :=
  Contains (stepNameOf objectPrefix name) "gather".toList

/-- What the loop does to the state over a listing, field by field: the
counters of the synthesized suite grow by the number of markers, failing
markers and `gather` markers, every marker adds the test case of its step, and
the aggregate collects the embedded suites. -/
def LoopEffect (env : Env) (objectPrefix : Str) (listing : List Str) (st st1 : LoopState) : Prop :=
  st1.openshiftCiJunit.TestCases.map (fun tc => tc.Name) =
    st.openshiftCiJunit.TestCases.map (fun tc => tc.Name) ++
      (listing.filter isMarker).map (stepNameOf objectPrefix) ∧
  st1.openshiftCiJunit.Name = st.openshiftCiJunit.Name ∧
  st1.openshiftCiJunit.Tests = st.openshiftCiJunit.Tests + (listing.countP isMarker : Nat) ∧
  st1.openshiftCiJunit.Failures = st.openshiftCiJunit.Failures +
    (listing.countP (fun n => isMarker n && (passedOf env n == some false)) : Nat) ∧
  st1.openshiftCiJunit.Errors = st.openshiftCiJunit.Errors ∧
  st1.openshiftCiJunit.TestCases.length =
    st.openshiftCiJunit.TestCases.length + listing.countP isMarker ∧
  st1.openshiftCiJunit.Properties.length =
    st.openshiftCiJunit.Properties.length + listing.countP gatherInObjectName ∧
  st1.rhtapJunitSuites.TestSuites = st.rhtapJunitSuites.TestSuites ++ embeddedSuites env listing ∧
  ((∀ n ∈ listing, isReport n = false) → st1.rhtapJunitSuites = st.rhtapJunitSuites)

/-- The loop turn of an object taken as a completion marker: lines 98 to 140. -/
def asCompletionMarker (env : Env) (objectPrefix : Str) (st : LoopState) (name : Str) :
    Option LoopState :=
  match Split name objectPrefix with
  | [_, rest] =>
    match env.readObject name with
    | none => none
    | some data => processFinished env st name (TrimPrefix rest "/".toList) data
  | _ => none

/-- The loop turn of an object taken as an embedded report: lines 98 to 108
and 142 to 148. -/
def asEmbeddedReport (env : Env) (objectPrefix : Str) (st : LoopState) (name : Str) :
    Option LoopState :=
  match Split name objectPrefix with
  | [_, _] =>
    match env.readObject name with
    | none => none
    | some data => processReport env st data
  | _ => none

/-- The three ways the loop treats a listed object. -/
inductive Role where
  | completionMarker
  | embeddedReport
  | ignored
deriving DecidableEq

/-- The role the conditions of lines 97 and 109 give an object name. -/
def roleOf (name : Str) : Role :=
  if Contains name finishedFilename then Role.completionMarker
  else if Contains name junitFilename then Role.embeddedReport
  else Role.ignored

/-- The loop turn that goes with a role; an ignored object leaves the state as
it is. -/
def processAs (env : Env) (objectPrefix : Str) (st : LoopState) (name : Str) :
    Role → Option LoopState
  | Role.completionMarker => asCompletionMarker env objectPrefix st name
  | Role.embeddedReport => asEmbeddedReport env objectPrefix st name
  | Role.ignored => some st

/-- Sum of a counter over a list of suites. -/
def sumOver (f : JUnitTestSuite → Int) (suites : List JUnitTestSuite) : Int :=
  (suites.map f).sum

/-! ## A concrete run

The job `logs/job/1` with target `e2e`: the steps `build` (passed) and `test`
(failed, with a build log), and an embedded report of three tests. -/

def scenarioPrefix : Str := "logs/job/1/artifacts/e2e".toList

def buildMarker : Str := "logs/job/1/artifacts/e2e/build/finished.json".toList

def testMarker : Str := "logs/job/1/artifacts/e2e/test/finished.json".toList

def testBuildLog : Str := "logs/job/1/artifacts/e2e/test/build-log.txt".toList

def gatherMarker : Str := "logs/job/1/artifacts/e2e/gather-extra/finished.json".toList

/-- The object prefix of a pull-request job of the repository
`openshift/must-gather`. -/
def mustGatherPrefix : Str :=
  "pr-logs/pull/openshift_must-gather/7/job/1/artifacts/e2e".toList

/-- The marker of the step `build` of that job. -/
def mustGatherBuildMarker : Str :=
  "pr-logs/pull/openshift_must-gather/7/job/1/artifacts/e2e/build/finished.json".toList

/-- An object that contains `finished.json` without ending in it. -/
def backupMarker : Str := "logs/job/1/artifacts/e2e/build/finished.json.bak".toList

/-- An object that ends in `e2e-report.xml` and contains `finished.json`. -/
def nestedReport : Str := "logs/job/1/artifacts/e2e/finished.json.d/e2e-report.xml".toList

def embeddedReport : Str := "logs/job/1/artifacts/e2e/test/artifacts/e2e-report.xml".toList

def scenarioJob : ProwJob :=
  { PodSpec := some [{ Args := ["--secret-dir=/secrets".toList, "--target=e2e".toList] }]
    URL := "https://prow.ci.openshift.org/view/gs/origin-ci-test/logs/job/1".toList }

/-- The one suite of the embedded report: three tests, one failure. -/
def embeddedSuite : JUnitTestSuite :=
  { Name := "e2e".toList, Tests := 3, Failures := 1, Errors := 0, Properties := []
    TestCases :=
      [stepCase "a".toList true [], stepCase "b".toList true [],
        stepCase "c".toList false "c failed".toList] }

/-- An embedded report whose own counters are the sums over its suites. -/
def embeddedDocument : JUnitDocument :=
  { tests := some 3, errors := some 0, failures := some 1, suites := [embeddedSuite] }

/-- The store of the concrete run; `log` is the body of `test/build-log.txt`
and `listing` what the bucket lists under the prefix. -/
def scenarioEnv (log : Str) (listing : List Str) : Env :=
  { getProwJobYAML := some scenarioJob
    listObjects := fun p => if p = scenarioPrefix then some listing else some []
    readObject := fun name =>
      if name = testMarker then some "passed: false".toList
      else if name = testBuildLog then some log
      else if name = embeddedReport then some "report".toList
      else if Contains name finishedFilename then some "passed: true".toList
      else none
    unmarshalFinished := fun data =>
      if data = "passed: true".toList then some { Passed := some true }
      else if data = "passed: false".toList then some { Passed := some false }
      else none
    parseJUnit := fun data => if data = "report".toList then some embeddedDocument else none }

/-! ## Facts about the string functions -/

theorem HasPrefix_nil (s : Str) : HasPrefix s [] = true := by
  cases s <;> rfl

theorem HasPrefix_append (p t : Str) : HasPrefix (p ++ t) p = true := by
  induction p with
  | nil => exact HasPrefix_nil _
  | cons c p ih => simp [HasPrefix, ih]

theorem HasPrefix_eq_true_iff (s p : Str) : HasPrefix s p = true ↔ ∃ t, s = p ++ t := by
  induction p generalizing s with
  | nil => simp [HasPrefix_nil]
  | cons c p ih =>
    cases s with
    | nil => simp [HasPrefix]
    | cons d s =>
      simp only [HasPrefix, Bool.and_eq_true, beq_iff_eq, ih, List.cons_append, List.cons.injEq]
      constructor
      · rintro ⟨rfl, t, rfl⟩
        exact ⟨t, rfl, rfl⟩
      · rintro ⟨t, rfl, rfl⟩
        exact ⟨rfl, t, rfl⟩

theorem HasSuffix_append (d suffix : Str) : HasSuffix (d ++ suffix) suffix = true := by
  simp [HasSuffix, HasPrefix_append]

theorem TrimSuffix_append (d suffix : Str) : TrimSuffix (d ++ suffix) suffix = d := by
  simp [TrimSuffix, HasSuffix_append]

theorem TrimPrefix_append (p t : Str) : TrimPrefix (p ++ t) p = t := by
  simp [TrimPrefix, HasPrefix_append]

theorem Contains_eq_true_iff (s substr : Str) :
    Contains s substr = true ↔ ∃ a b, s = a ++ substr ++ b := by
  induction s with
  | nil =>
    simp only [Contains, HasPrefix_eq_true_iff]
    constructor
    · rintro ⟨t, h⟩
      exact ⟨[], t, by simpa using h⟩
    · rintro ⟨a, b, h⟩
      have h1 : a = [] ∧ substr = [] ∧ b = [] := by simpa [and_assoc] using h.symm
      exact ⟨[], by simp [h1.2.1]⟩
  | cons c s ih =>
    simp only [Contains, Bool.or_eq_true, HasPrefix_eq_true_iff, ih]
    constructor
    · rintro (⟨t, h⟩ | ⟨a, b, h⟩)
      · exact ⟨[], t, by simpa using h⟩
      · exact ⟨c :: a, b, by simp [h]⟩
    · rintro ⟨a, b, h⟩
      cases a with
      | nil => exact Or.inl ⟨b, by simpa using h⟩
      | cons d a =>
        simp only [List.cons_append, List.cons.injEq] at h
        exact Or.inr ⟨a, b, by simp [h.2]⟩

theorem Contains_of_HasSuffix (d suffix : Str) : Contains (d ++ suffix) suffix = true :=
  (Contains_eq_true_iff _ _).2 ⟨d, [], by simp⟩

/-! ### `strings.Split` -/

theorem splitLoop_ne_nil (sep s : Str) (skip : Nat) (cur : Str) :
    splitLoop sep s skip cur ≠ [] := by
  induction s generalizing skip cur with
  | nil => simp [splitLoop]
  | cons c s ih =>
    cases skip with
    | succ k => simpa [splitLoop] using ih k cur
    | zero =>
      by_cases h : HasPrefix (c :: s) sep = true
      · simp [splitLoop, h]
      · simpa [splitLoop, h] using ih 0 (cur ++ [c])

theorem splitLoop_skip (sep xs rest cur : Str) :
    splitLoop sep (xs ++ rest) xs.length cur = splitLoop sep rest 0 cur := by
  induction xs with
  | nil => cases rest <;> simp [splitLoop]
  | cons x xs ih => simpa [splitLoop] using ih

theorem splitLoop_match (c : Char) (sep1 rest cur : Str) :
    splitLoop (c :: sep1) ((c :: sep1) ++ rest) 0 cur
      = cur :: splitLoop (c :: sep1) rest 0 [] := by
  have h : HasPrefix (c :: (sep1 ++ rest)) (c :: sep1) = true := by
    simpa using HasPrefix_append (c :: sep1) rest
  have e : splitLoop (c :: sep1) (c :: (sep1 ++ rest)) 0 cur
      = cur :: splitLoop (c :: sep1) (sep1 ++ rest) sep1.length [] := by
    simp [splitLoop, h]
  rw [List.cons_append, e, splitLoop_skip]

theorem splitLoop_no_occurrence (sep s cur : Str)
    (h : Contains s sep = false) : splitLoop sep s 0 cur = [cur ++ s] := by
  induction s generalizing cur with
  | nil => simp [splitLoop]
  | cons c s ih =>
    simp only [Contains, Bool.or_eq_false_iff] at h
    simp [splitLoop, h.1, ih (cur ++ [c]) h.2]

theorem splitLoop_singleton (sep s cur y : Str) (hsep : sep ≠ [])
    (h : splitLoop sep s 0 cur = [y]) : y = cur ++ s ∧ Contains s sep = false := by
  induction s generalizing cur with
  | nil =>
    cases sep with
    | nil => exact absurd rfl hsep
    | cons d sep1 =>
      simp only [splitLoop, List.cons.injEq, and_true] at h
      simp [h, Contains, HasPrefix]
  | cons c s ih =>
    by_cases hp : HasPrefix (c :: s) sep = true
    · simp only [splitLoop, hp, if_true, List.cons.injEq] at h
      exact absurd h.2 (splitLoop_ne_nil _ _ _ _)
    · simp only [splitLoop, hp] at h
      obtain ⟨h1, h2⟩ := ih (cur ++ [c]) h
      simp only [Bool.not_eq_true] at hp
      simp [h1, Contains, hp, h2]

theorem splitLoop_pair (sep s cur x y : Str) (hsep : sep ≠ [])
    (h : splitLoop sep s 0 cur = [x, y]) :
    ∃ a, x = cur ++ a ∧ s = a ++ sep ++ y ∧ Contains y sep = false := by
  induction s generalizing cur with
  | nil => simp [splitLoop] at h
  | cons c s ih =>
    by_cases hp : HasPrefix (c :: s) sep = true
    · obtain ⟨t, ht⟩ := (HasPrefix_eq_true_iff _ _).1 hp
      cases sep with
      | nil => exact absurd rfl hsep
      | cons d sep1 =>
        rw [ht, splitLoop_match] at h
        simp only [List.cons.injEq] at h
        obtain ⟨h1, h2⟩ := splitLoop_singleton _ _ _ _ hsep h.2
        refine ⟨[], by simp [h.1], ?_, ?_⟩
        · simp only [List.nil_append] at h1
          simp [ht, h1]
        · simpa [h1] using h2
    · simp only [splitLoop, hp] at h
      obtain ⟨a, h1, h2, h3⟩ := ih (cur ++ [c]) h
      exact ⟨c :: a, by simp [h1], by simp [h2], h3⟩

theorem Split_pair (s sep x y : Str) (hsep : sep ≠ []) (h : Split s sep = [x, y]) :
    s = x ++ sep ++ y ∧ Contains y sep = false := by
  simp only [Split, hsep, if_false] at h
  obtain ⟨a, h1, h2, h3⟩ := splitLoop_pair sep s [] x y hsep h
  simp only [List.nil_append] at h1
  exact ⟨by rw [h1]; exact h2, h3⟩

theorem list_length_two {α : Type} (l : List α) (h : l.length = 2) : ∃ x y, l = [x, y] := by
  match l, h with
  | [x, y], _ => exact ⟨x, y, rfl⟩

/-! ### Separators of one character -/

theorem HasPrefix_single (d c : Char) (s : Str) : HasPrefix (d :: s) [c] = (d == c) := by
  simp [HasPrefix, HasPrefix_nil]

theorem Contains_single_eq_false (c : Char) (s : Str) (h : c ∉ s) : Contains s [c] = false := by
  induction s with
  | nil => simp [Contains, HasPrefix]
  | cons d s ih =>
    simp only [List.mem_cons, not_or] at h
    have hd : (d == c) = false := by
      simpa using fun e : d = c => h.1 e.symm
    simp [Contains, HasPrefix_single, hd, ih h.2]

theorem splitLoop_single_first (c : Char) (k v cur : Str) (h : c ∉ k) :
    splitLoop [c] (k ++ c :: v) 0 cur = (cur ++ k) :: splitLoop [c] v 0 [] := by
  induction k generalizing cur with
  | nil =>
    have e := splitLoop_match c [] v cur
    simpa using e
  | cons d k ih =>
    simp only [List.mem_cons, not_or] at h
    have hd : (d == c) = false := by
      simpa using fun e : d = c => h.1 e.symm
    have e : splitLoop [c] (d :: (k ++ c :: v)) 0 cur
        = splitLoop [c] (k ++ c :: v) 0 (cur ++ [d]) := by
      simp [splitLoop, HasPrefix_single, hd]
    rw [List.cons_append, e, ih _ h.2]
    simp

theorem splitLoop_single_head (c : Char) (s cur : Str) :
    (splitLoop [c] s 0 cur).head? = some (cur ++ s.takeWhile (fun d => d != c)) := by
  induction s generalizing cur with
  | nil => simp [splitLoop]
  | cons d s ih =>
    by_cases hd : d = c
    · subst hd
      simp [splitLoop, HasPrefix_single]
    · have hd1 : (d == c) = false := by simpa using hd
      have hd2 : (d != c) = true := by simpa using hd
      simp [splitLoop, HasPrefix_single, hd1, hd2, ih]

theorem splitLoop_single_length (c : Char) (s cur : Str) :
    (splitLoop [c] s 0 cur).length = s.count c + 1 := by
  induction s generalizing cur with
  | nil => simp [splitLoop]
  | cons d s ih =>
    by_cases hd : d = c
    · subst hd
      simp [splitLoop, HasPrefix_single, ih]
    · have hd1 : (d == c) = false := by simpa using hd
      simp [splitLoop, HasPrefix_single, hd1, ih, List.count_cons, hd]

theorem Split_single_head (c : Char) (s : Str) :
    (Split s [c]).head? = some (s.takeWhile (fun d => d != c)) := by
  have h := splitLoop_single_head c s []
  simpa [Split] using h

theorem Split_single_pair (c : Char) (k v : Str) (hk : c ∉ k) (hv : c ∉ v) :
    Split (k ++ c :: v) [c] = [k, v] := by
  have h := splitLoop_single_first c k v [] hk
  have h2 := splitLoop_no_occurrence [c] v [] (Contains_single_eq_false c v hv)
  simp only [Split, List.cons_ne_nil, if_false]
  rw [h, h2]
  simp

/-! ### Counting occurrences -/

theorem occurrences_cons (sep : Str) (c : Char) (s : Str) :
    occurrences sep (c :: s)
      = (if HasPrefix (c :: s) sep then 1 else 0) + occurrences sep s := rfl

theorem splitLoop_cons_nomatch (sep : Str) (c : Char) (s cur : Str)
    (h : HasPrefix (c :: s) sep = false) :
    splitLoop sep (c :: s) 0 cur = splitLoop sep s 0 (cur ++ [c]) := by
  simp [splitLoop, h]

theorem occurrences_le_append (sep a t : Str) :
    occurrences sep t ≤ occurrences sep (a ++ t) := by
  induction a with
  | nil => simp
  | cons c a ih =>
    rw [List.cons_append, occurrences_cons]
    omega

theorem occurrences_pos_of_HasPrefix (sep t : Str) (h : HasPrefix t sep = true) :
    1 ≤ occurrences sep t := by
  cases t with
  | nil => simp [occurrences, h]
  | cons c t => simp [occurrences, h]

theorem occurrences_eq_zero_iff (sep s : Str) :
    occurrences sep s = 0 ↔ Contains s sep = false := by
  induction s with
  | nil => by_cases h : HasPrefix [] sep = true <;> simp [occurrences, Contains, h]
  | cons c s ih =>
    by_cases h : HasPrefix (c :: s) sep = true
    · simp [occurrences, Contains, h]
    · simp [occurrences, Contains, h, ih]

theorem occurrences_skip (c : Char) (sep1 xs rest : Str) (h : c ∉ xs) :
    occurrences (c :: sep1) (xs ++ rest) = occurrences (c :: sep1) rest := by
  induction xs with
  | nil => simp
  | cons d xs ih =>
    simp only [List.mem_cons, not_or] at h
    have hd : (d == c) = false := by
      simpa using fun e : d = c => h.1 e.symm
    simp [occurrences, HasPrefix, hd, ih h.2]

theorem splitLoop_of_occurrences_one (sep a b cur : Str) (hsep : sep ≠ [])
    (h : occurrences sep (a ++ sep ++ b) = 1) :
    splitLoop sep (a ++ sep ++ b) 0 cur = [cur ++ a, b] := by
  induction a generalizing cur with
  | nil =>
    cases sep with
    | nil => exact absurd rfl hsep
    | cons d sep1 =>
      have hp : HasPrefix (d :: (sep1 ++ b)) (d :: sep1) = true := by
        simpa using HasPrefix_append (d :: sep1) b
      rw [List.nil_append, List.cons_append, occurrences_cons, if_pos hp] at h
      have hb : occurrences (d :: sep1) b = 0 := by
        have := occurrences_le_append (d :: sep1) sep1 b
        omega
      have e := splitLoop_match d sep1 b cur
      simp only [List.nil_append, List.append_nil]
      rw [e, splitLoop_no_occurrence _ _ _ ((occurrences_eq_zero_iff _ _).1 hb)]
      simp
  | cons x a ih =>
    have h1 : 1 ≤ occurrences sep (a ++ sep ++ b) := by
      have e1 := occurrences_le_append sep a (sep ++ b)
      have e2 := occurrences_pos_of_HasPrefix sep (sep ++ b) (HasPrefix_append sep b)
      rw [List.append_assoc]
      omega
    rw [List.cons_append, List.cons_append, occurrences_cons] at h
    have hp : HasPrefix (x :: (a ++ sep ++ b)) sep = false := by
      by_contra hc
      simp only [Bool.not_eq_false] at hc
      rw [if_pos hc] at h
      omega
    have h2 : occurrences sep (a ++ sep ++ b) = 1 := by
      rw [hp] at h
      simpa using h
    rw [List.cons_append, List.cons_append, splitLoop_cons_nomatch _ _ _ _ hp, ih _ h2]
    simp

theorem occurrences_one_of_splitLoop (c : Char) (sep1 s cur x y : Str) (hc : c ∉ sep1)
    (h : splitLoop (c :: sep1) s 0 cur = [x, y]) : occurrences (c :: sep1) s = 1 := by
  induction s generalizing cur with
  | nil => simp [splitLoop] at h
  | cons d s ih =>
    by_cases hp : HasPrefix (d :: s) (c :: sep1) = true
    · obtain ⟨t, ht⟩ := (HasPrefix_eq_true_iff _ _).1 hp
      rw [ht, splitLoop_match] at h
      simp only [List.cons.injEq] at h
      obtain ⟨_, h2⟩ := splitLoop_singleton _ _ _ _ (List.cons_ne_nil _ _) h.2
      have h3 := (occurrences_eq_zero_iff _ _).2 h2
      have h4 := occurrences_skip c sep1 sep1 t hc
      have hp2 : HasPrefix (c :: (sep1 ++ t)) (c :: sep1) = true := by
        simpa using HasPrefix_append (c :: sep1) t
      rw [ht, List.cons_append, occurrences_cons, if_pos hp2]
      omega
    · simp only [splitLoop, hp] at h
      have := ih _ h
      simp only [Bool.not_eq_true] at hp
      simp [occurrences, hp, this]

/-! ## `determineJobTarget` and the object prefix -/

theorem bucketName_cons : bucketName = 'o' :: "rigin-ci-test".toList := by
  decide

theorem bucketName_no_overlap : 'o' ∉ "rigin-ci-test".toList := by
  decide

theorem TrimLeft_slash (s : Str) : TrimLeft s "/".toList = s.dropWhile (fun c => c == '/') := by
  have : (fun c : Char => List.contains "/".toList c) = (fun c => c == '/') := by
    funext c
    show List.elem c ['/'] = (c == '/')
    cases h : (c == '/') <;> simp [List.elem, h]
  simp only [TrimLeft, this]

/-- C7: the derivation of the object prefix ends the process exactly when the
result URL does not contain the bucket name `origin-ci-test` exactly once;
otherwise the prefix is the part of the URL after the bucket name without its
leading `/` characters, followed by `/artifacts/` and the target. -/
theorem deriveObjectPrefix_spec (u t : Str) :
    (deriveObjectPrefix u t = none ↔ occurrences bucketName u ≠ 1) ∧
    (∀ a b, u = a ++ bucketName ++ b → occurrences bucketName u = 1 →
      deriveObjectPrefix u t
        = some (b.dropWhile (fun c => c == '/') ++ "/artifacts/".toList ++ t)) := by
  have hne : bucketName ≠ [] := by decide
  have key : ∀ a b, u = a ++ bucketName ++ b → occurrences bucketName u = 1 →
      Split u bucketName = [a, b] := by
    intro a b hu h1
    rw [hu] at h1
    have := splitLoop_of_occurrences_one bucketName a b [] hne h1
    simpa [Split, hne, hu] using this
  refine ⟨?_, ?_⟩
  · constructor
    · intro hnone h1
      have hc : Contains u bucketName = true := by
        by_contra hc
        simp only [Bool.not_eq_true] at hc
        have := (occurrences_eq_zero_iff _ _).2 hc
        omega
      obtain ⟨a, b, hu⟩ := (Contains_eq_true_iff _ _).1 hc
      simp [deriveObjectPrefix, key a b hu h1] at hnone
    · intro h1
      by_contra hsome
      apply h1
      unfold deriveObjectPrefix at hsome
      split at hsome
      · rename_i x y hxy
        simp only [Split, hne, if_false] at hxy
        rw [bucketName_cons] at hxy ⊢
        exact occurrences_one_of_splitLoop _ _ _ _ _ _ bucketName_no_overlap hxy
      · exact absurd rfl hsome
  · intro a b hu h1
    simp only [deriveObjectPrefix, key a b hu h1, TrimLeft_slash]

theorem scanArgs_eq_error_iff (args : List Str) :
    scanArgs args = TargetResult.error targetErrorText
      ↔ ∀ a ∈ args, Contains a "--target".toList = false := by
  induction args with
  | nil => simp [scanArgs]
  | cons arg rest ih =>
    by_cases hc : Contains arg "--target".toList = true
    · have hne : scanArgs (arg :: rest) ≠ TargetResult.error targetErrorText := by
        simp only [scanArgs, hc, if_true]
        split <;> simp
      constructor
      · intro h
        exact absurd h hne
      · intro h
        have := h arg (List.mem_cons_self _ _)
        rw [hc] at this
        exact absurd this (by simp)
    · simp only [Bool.not_eq_true] at hc
      simp only [scanArgs, hc, Bool.false_eq_true, if_false, ih, List.mem_cons, forall_eq_or_imp,
        true_and]

theorem scanArgs_first (pre : List Str) (arg : Str) (post : List Str)
    (hpre : ∀ a ∈ pre, Contains a "--target".toList = false)
    (harg : Contains arg "--target".toList = true) :
    scanArgs (pre ++ arg :: post) =
      match Split arg "=".toList with
      | [_, value] => TargetResult.ok value
      | _ => TargetResult.fatal := by
  induction pre with
  | nil => simp only [List.nil_append, scanArgs, harg, if_true]
  | cons a pre ih =>
    have ha := hpre a (List.mem_cons_self _ _)
    have hrest : ∀ b ∈ pre, Contains b "--target".toList = false :=
      fun b hb => hpre b (List.mem_cons_of_mem _ hb)
    have e : scanArgs (a :: (pre ++ arg :: post)) = scanArgs (pre ++ arg :: post) := by
      simp only [scanArgs, ha, Bool.false_eq_true, if_false]
    rw [List.cons_append, e, ih hrest]

/-- C6, as the program has it: `determineJobTarget` returns the error value
exactly when no argument of the first container contains the text `--target`.
Otherwise only the first argument containing `--target` counts: when it is
`--target=<value>` with no `=` inside the value, the value is returned; more
generally, when it holds exactly one `=`, the text after that `=` is returned;
when it does not hold exactly one `=`, the process ends in `log.Fatal`. -/
theorem determineJobTarget_spec (pjYAML : ProwJob) (c : Container) (cs : List Container)
    (h : pjYAML.PodSpec = some (c :: cs)) :
    (determineJobTarget pjYAML = TargetResult.error targetErrorText
      ↔ ∀ a ∈ c.Args, Contains a "--target".toList = false) ∧
    (∀ pre arg post, c.Args = pre ++ arg :: post →
      (∀ a ∈ pre, Contains a "--target".toList = false) →
      Contains arg "--target".toList = true →
        (∀ value, arg = "--target=".toList ++ value → '=' ∉ value →
          determineJobTarget pjYAML = TargetResult.ok value) ∧
        (arg.count '=' = 1 → ∃ k value, arg = k ++ "=".toList ++ value ∧
          determineJobTarget pjYAML = TargetResult.ok value) ∧
        (arg.count '=' ≠ 1 → determineJobTarget pjYAML = TargetResult.fatal)) := by
  have hd : determineJobTarget pjYAML = scanArgs c.Args := by
    simp [determineJobTarget, h]
  refine ⟨by rw [hd]; exact scanArgs_eq_error_iff _, ?_⟩
  intro pre arg post hargs hpre harg
  have hscan := scanArgs_first pre arg post hpre harg
  rw [← hargs, ← hd] at hscan
  have hlen : (Split arg "=".toList).length = arg.count '=' + 1 := by
    have := splitLoop_single_length '=' arg []
    simpa [Split] using this
  refine ⟨?_, ?_, ?_⟩
  · intro value hv hnot
    have hk : '=' ∉ "--target".toList := by decide
    have e : arg = "--target".toList ++ '=' :: value := by rw [hv]; rfl
    have hs : Split arg "=".toList = ["--target".toList, value] := by
      rw [e]
      exact Split_single_pair '=' _ _ hk hnot
    rw [hscan, hs]
  · intro hcount
    obtain ⟨x, y, hxy⟩ := list_length_two _ (by rw [hlen, hcount])
    have hp := Split_pair arg "=".toList x y (by decide) hxy
    exact ⟨x, y, hp.1, by rw [hscan, hxy]⟩
  · intro hcount
    rw [hscan]
    split
    · rename_i x y hxy
      rw [hxy] at hlen
      simp only [List.length_cons, List.length_nil] at hlen
      omega
    · rfl

/-! ## One turn of the loop -/

theorem Split_slash_cons (filePath : Str) :
    ∃ tl, Split filePath "/".toList = filePath.takeWhile (fun d => d != '/') :: tl := by
  have h := Split_single_head '/' filePath
  cases hs : Split filePath ['/'] with
  | nil => rw [hs] at h; simp at h
  | cons x tl =>
    rw [hs] at h
    simp only [List.head?_cons, Option.some.injEq] at h
    exact ⟨tl, by rw [← h]; exact hs⟩

theorem processFinished_ok (env : Env) (st : LoopState) (name filePath data : Str) (p : Bool)
    (log : Str) (hu : env.unmarshalFinished data = some { Passed := some p })
    (hl : p = false →
      env.readObject (TrimSuffix name finishedFilename ++ buildLogFilename) = some log) :
    ∃ st1, processFinished env st name filePath data = some st1 ∧
      MarkerEffect st st1 name (filePath.takeWhile (fun d => d != '/')) p log := by
  obtain ⟨tl, htl⟩ := Split_slash_cons filePath
  cases p with
  | true =>
    refine ⟨_, by simp only [processFinished, htl, hu]; rfl, ?_⟩
    by_cases hg : Contains name "gather".toList = true
    · simp only [MarkerEffect, hg, if_true, stepCase, specStatePassed]
      simp
    · simp only [MarkerEffect, hg, stepCase, specStatePassed]
      simp
  | false =>
    have hlog := hl rfl
    refine ⟨_, by simp only [processFinished, htl, hu, downloadBuildLog, hlog]; rfl, ?_⟩
    by_cases hg : Contains name "gather".toList = true
    · simp only [MarkerEffect, hg, if_true, stepCase, specStateFailed]
      simp
    · simp only [MarkerEffect, hg, stepCase, specStateFailed]
      simp

theorem processFinished_inv (env : Env) (st st1 : LoopState) (name filePath data : Str)
    (h : processFinished env st name filePath data = some st1) :
    ∃ p log, env.unmarshalFinished data = some { Passed := some p } ∧
      (p = false →
        env.readObject (TrimSuffix name finishedFilename ++ buildLogFilename) = some log) := by
  obtain ⟨tl, htl⟩ := Split_slash_cons filePath
  simp only [processFinished, htl] at h
  cases hu : env.unmarshalFinished data with
  | none => simp [hu] at h
  | some finished =>
    obtain ⟨passed⟩ := finished
    cases passed with
    | none => simp [hu] at h
    | some p =>
      cases p with
      | true => exact ⟨true, [], rfl, by simp⟩
      | false =>
        simp only [hu, downloadBuildLog] at h
        cases hlog : env.readObject (TrimSuffix name finishedFilename ++ buildLogFilename) with
        | none => simp [hlog] at h
        | some log => exact ⟨false, log, rfl, fun _ => rfl⟩

theorem processObject_dispatch (env : Env) (objectPrefix : Str) (st : LoopState) (name : Str) :
    processObject env objectPrefix st name =
      if Contains name finishedFilename then asCompletionMarker env objectPrefix st name
      else if Contains name junitFilename then asEmbeddedReport env objectPrefix st name
      else some st := by
  by_cases hf : Contains name finishedFilename = true
  · simp only [processObject, hf, Bool.true_or, if_true, asCompletionMarker]
  · simp only [Bool.not_eq_true] at hf
    by_cases hj : Contains name junitFilename = true
    · simp only [processObject, hf, hj, Bool.or_true, if_true, Bool.false_eq_true, if_false,
        asEmbeddedReport]
    · simp only [Bool.not_eq_true] at hj
      simp only [processObject, hf, hj, Bool.or_false, Bool.false_eq_true, if_false]

theorem asCompletionMarker_ok (env : Env) (objectPrefix : Str) (st : LoopState)
    (name a b data : Str) (p : Bool) (log : Str)
    (hs : Split name objectPrefix = [a, b]) (hr : env.readObject name = some data)
    (hu : env.unmarshalFinished data = some { Passed := some p })
    (hl : p = false →
      env.readObject (TrimSuffix name finishedFilename ++ buildLogFilename) = some log) :
    ∃ st1, asCompletionMarker env objectPrefix st name = some st1 ∧
      MarkerEffect st st1 name ((TrimPrefix b "/".toList).takeWhile (fun d => d != '/')) p log := by
  obtain ⟨st1, h1, h2⟩ := processFinished_ok env st name (TrimPrefix b "/".toList) data p log hu hl
  exact ⟨st1, by simp only [asCompletionMarker, hs, hr, h1], h2⟩

theorem asCompletionMarker_inv (env : Env) (objectPrefix : Str) (st st1 : LoopState)
    (name : Str) (h : asCompletionMarker env objectPrefix st name = some st1) :
    ∃ a b data p log, Split name objectPrefix = [a, b] ∧ env.readObject name = some data ∧
      env.unmarshalFinished data = some { Passed := some p } ∧
      (p = false →
        env.readObject (TrimSuffix name finishedFilename ++ buildLogFilename) = some log) ∧
      MarkerEffect st st1 name ((TrimPrefix b "/".toList).takeWhile (fun d => d != '/')) p log := by
  unfold asCompletionMarker at h
  split at h
  · rename_i a b hs
    cases hr : env.readObject name with
    | none => simp [hr] at h
    | some data =>
      simp only [hr] at h
      obtain ⟨p, log, hu, hl⟩ := processFinished_inv env st st1 name _ data h
      obtain ⟨st2, h1, h2⟩ :=
        processFinished_ok env st name (TrimPrefix b "/".toList) data p log hu hl
      have e : st2 = st1 := by
        rw [h] at h1
        exact (Option.some.inj h1).symm
      exact ⟨a, b, data, p, log, hs, rfl, hu, hl, e ▸ h2⟩
  · exact absurd h (by simp)

theorem asEmbeddedReport_inv (env : Env) (objectPrefix : Str) (st st1 : LoopState)
    (name : Str) (h : asEmbeddedReport env objectPrefix st name = some st1) :
    ∃ doc, documentOf env name = some doc ∧
      st1.openshiftCiJunit = st.openshiftCiJunit ∧
      st1.rhtapJunitSuites = decodeInto doc
        { st.rhtapJunitSuites with
          Failures := wrapInt (st.rhtapJunitSuites.Failures + st.openshiftCiJunit.Failures)
          Errors := wrapInt (st.rhtapJunitSuites.Errors + st.openshiftCiJunit.Errors)
          Tests := wrapInt (st.rhtapJunitSuites.Tests + st.openshiftCiJunit.Tests) } := by
  unfold asEmbeddedReport at h
  split at h
  · cases hr : env.readObject name with
    | none => simp [hr] at h
    | some data =>
      simp only [hr, processReport] at h
      cases hp : env.parseJUnit data with
      | none => simp [hp] at h
      | some doc =>
        simp only [hp, Option.some.injEq] at h
        refine ⟨doc, by simp [documentOf, hr, hp], ?_, ?_⟩ <;> rw [← h]
  · exact absurd h (by simp)

theorem LoopEffect_nil (env : Env) (objectPrefix : Str) (st : LoopState) :
    LoopEffect env objectPrefix [] st st := by
  simp [LoopEffect, embeddedSuites]

theorem LoopEffect_cons (env : Env) (objectPrefix name : Str) (rest : List Str)
    (st st1 st2 : LoopState)
    (h1 : LoopEffect env objectPrefix [name] st st1)
    (h2 : LoopEffect env objectPrefix rest st1 st2) :
    LoopEffect env objectPrefix (name :: rest) st st2 := by
  obtain ⟨a0, a1, a2, a3, a4, a5, a6, a7, a8⟩ := h1
  obtain ⟨b0, b1, b2, b3, b4, b5, b6, b7, b8⟩ := h2
  simp only [List.countP_cons, List.countP_nil, Nat.zero_add, embeddedSuites,
    List.append_nil] at a2 a3 a5 a6 a7
  refine ⟨?_, by rw [b1, a1], ?_, ?_, by rw [b4, a4], ?_, ?_, ?_, ?_⟩
  · rw [b0, a0]
    by_cases hm : isMarker name = true
    · simp [List.filter_cons, hm]
    · simp [List.filter_cons, hm]
  · rw [b2, a2, List.countP_cons]
    push_cast
    omega
  · rw [b3, a3, List.countP_cons]
    push_cast
    omega
  · rw [b5, a5, List.countP_cons]
    omega
  · rw [b6, a6, List.countP_cons]
    omega
  · rw [b7, a7]
    simp [embeddedSuites]
  · intro hno
    have hn : ∀ n ∈ [name], isReport n = false := by
      intro n hn
      exact hno n (by simp only [List.mem_singleton] at hn; simp [hn])
    have hr : ∀ n ∈ rest, isReport n = false :=
      fun n hn => hno n (List.mem_cons_of_mem _ hn)
    rw [b8 hr, a8 hn]

theorem passedOf_eq (env : Env) (name data : Str) (p : Bool)
    (hr : env.readObject name = some data)
    (hu : env.unmarshalFinished data = some { Passed := some p }) :
    passedOf env name = some p := by
  simp [passedOf, hr, hu]

theorem processObject_effect (env : Env) (objectPrefix : Str) (st st1 : LoopState) (name : Str)
    (h : processObject env objectPrefix st name = some st1) :
    LoopEffect env objectPrefix [name] st st1 := by
  rw [processObject_dispatch] at h
  by_cases hf : Contains name finishedFilename = true
  · rw [if_pos hf] at h
    obtain ⟨a, b, data, p, log, hs, hr, hu, _, c1, c2, c3, c4, c5, c6, c7⟩ :=
      asCompletionMarker_inv env objectPrefix st st1 name h
    have hp := passedOf_eq env name data p hr hu
    have hm : isMarker name = true := hf
    have hrep : isReport name = false := by simp [isReport, hf]
    refine ⟨?_, c2, ?_, ?_, c5, ?_, ?_, ?_, fun _ => c1⟩
    · rw [c6]
      have hn : stepNameOf objectPrefix name
          = (TrimPrefix b "/".toList).takeWhile (fun d => d != '/') := by
        simp only [stepNameOf, hs]
      have hc : ∀ x : Str, (stepCase x p log).Name = x := by
        intro x
        cases p <;> rfl
      simp only [List.map_append, List.map_cons, List.map_nil, List.filter_cons, hm, if_true,
        List.filter_nil, hn, hc]
    · rw [c3]
      simp [hm]
    · rw [c4]
      cases p <;> simp [hm, hp]
    · rw [c6]
      simp [hm]
    · rw [c7]
      by_cases hg : Contains name "gather".toList = true
      · have hgm : gatherInObjectName name = true := by
          simp only [gatherInObjectName, hm, hg, Bool.and_self]
        rw [if_pos hg]
        simp [hgm]
      · have hgm : gatherInObjectName name = false := by
          simp only [Bool.not_eq_true] at hg
          simp only [gatherInObjectName, hm, hg, Bool.and_false]
        rw [if_neg hg]
        simp [hgm]
    · rw [c1]
      simp [embeddedSuites, hrep]
  · simp only [Bool.not_eq_true] at hf
    have hm : isMarker name = false := hf
    have hgm : gatherInObjectName name = false := by simp [gatherInObjectName, hm]
    rw [if_neg (by simp [hf])] at h
    by_cases hj : Contains name junitFilename = true
    · rw [if_pos hj] at h
      obtain ⟨doc, hd, e1, e2⟩ := asEmbeddedReport_inv env objectPrefix st st1 name h
      have hrep : isReport name = true := by simp [isReport, hf, hj]
      refine ⟨?_, by rw [e1], ?_, ?_, by rw [e1], ?_, ?_, ?_, ?_⟩
      · rw [e1]
        simp [hm]
      · rw [e1]
        simp [hm]
      · rw [e1]
        simp [hm]
      · rw [e1]
        simp [hm]
      · rw [e1]
        simp [hgm]
      · rw [e2]
        simp [decodeInto, embeddedSuites, hrep, hd]
      · intro hno
        have := hno name (by simp)
        rw [hrep] at this
        exact absurd this (by simp)
    · rw [if_neg hj] at h
      simp only [Bool.not_eq_true] at hj
      have hrep : isReport name = false := by simp [isReport, hj]
      have e : st1 = st := (Option.some.inj h).symm
      subst e
      refine ⟨?_, rfl, ?_, ?_, rfl, ?_, ?_, ?_, fun _ => rfl⟩ <;>
        simp [hm, hgm, embeddedSuites, hrep]

theorem mainLoop_effect (env : Env) (objectPrefix : Str) (listing : List Str)
    (st st1 : LoopState) (h : mainLoop env objectPrefix listing st = some st1) :
    LoopEffect env objectPrefix listing st st1 := by
  induction listing generalizing st with
  | nil =>
    simp only [mainLoop, Option.some.injEq] at h
    subst h
    exact LoopEffect_nil env objectPrefix st
  | cons name rest ih =>
    simp only [mainLoop] at h
    cases hp : processObject env objectPrefix st name with
    | none => simp [hp] at h
    | some st2 =>
      simp only [hp] at h
      exact LoopEffect_cons env objectPrefix name rest st st2 st1
        (processObject_effect env objectPrefix st st2 name hp) (ih st2 h)

theorem processObject_marker_succeeds (env : Env) (objectPrefix : Str) (st : LoopState)
    (name : Str) (hm : isMarker name = true) (hok : markerOk env objectPrefix name = true) :
    ∃ st1, processObject env objectPrefix st name = some st1 := by
  have hf : Contains name finishedFilename = true := hm
  simp only [markerOk, Bool.and_eq_true, beq_iff_eq] at hok
  obtain ⟨hlen, hrest⟩ := hok
  obtain ⟨a, b, hs⟩ := list_length_two _ hlen
  rw [processObject_dispatch, if_pos hf]
  cases hr : env.readObject name with
  | none => simp [passedOf, hr] at hrest
  | some data =>
    cases hu : env.unmarshalFinished data with
    | none => simp [passedOf, hr, hu] at hrest
    | some finished =>
      obtain ⟨passed⟩ := finished
      cases passed with
      | none => simp [passedOf, hr, hu] at hrest
      | some p =>
        cases p with
        | true =>
          obtain ⟨st1, h1, _⟩ := asCompletionMarker_ok env objectPrefix st name a b data true []
            hs hr hu (by simp)
          exact ⟨st1, h1⟩
        | false =>
          simp only [passedOf, hr, hu, downloadBuildLog] at hrest
          cases hlog : env.readObject (TrimSuffix name finishedFilename ++ buildLogFilename) with
          | none => simp [hlog] at hrest
          | some log =>
            obtain ⟨st1, h1, _⟩ := asCompletionMarker_ok env objectPrefix st name a b data false
              log hs hr hu (fun _ => hlog)
            exact ⟨st1, h1⟩

theorem mainLoop_succeeds (env : Env) (objectPrefix : Str) (listing : List Str)
    (hno : ∀ n ∈ listing, isReport n = false)
    (hok : ∀ n ∈ listing, isMarker n = true → markerOk env objectPrefix n = true)
    (st : LoopState) : ∃ st1, mainLoop env objectPrefix listing st = some st1 := by
  induction listing generalizing st with
  | nil => exact ⟨st, rfl⟩
  | cons name rest ih =>
    have hrest := ih (fun n hn => hno n (List.mem_cons_of_mem _ hn))
      (fun n hn => hok n (List.mem_cons_of_mem _ hn))
    have hstep : ∃ st2, processObject env objectPrefix st name = some st2 := by
      by_cases hm : isMarker name = true
      · exact processObject_marker_succeeds env objectPrefix st name hm
          (hok name (List.mem_cons_self _ _) hm)
      · have hf : Contains name finishedFilename = false := by
          simpa [isMarker] using hm
        have hrep := hno name (List.mem_cons_self _ _)
        have hj : Contains name junitFilename = false := by
          simpa [isReport, hf] using hrep
        exact ⟨st, by rw [processObject_dispatch]; simp [hf, hj]⟩
    obtain ⟨st2, h2⟩ := hstep
    obtain ⟨st1, h1⟩ := hrest st2
    exact ⟨st1, by simp only [mainLoop, h2, h1]⟩

/-! ## The claims -/

/-- C1: over a listing without embedded report, the synthesized suite the
loop ends with has as many tests and test cases as the listing has completion
markers, one test case per marker under the name of its step, and as many
failures as the listing has markers with `passed = false`, whatever the order
of the listing; and the loop does end when every marker holds the object
prefix once, decodes to a pass/fail boolean and, when failed, has a readable
build log. -/
theorem synthesized_suite_counts (env : Env) (objectPrefix : Str) (listing : List Str)
    (hno : ∀ n ∈ listing, isReport n = false) :
    (∀ st, mainLoop env objectPrefix listing initialState = some st →
      st.openshiftCiJunit.Tests = (listing.countP isMarker : Nat) ∧
      st.openshiftCiJunit.Failures =
        (listing.countP (fun n => isMarker n && (passedOf env n == some false)) : Nat) ∧
      st.openshiftCiJunit.TestCases.length = listing.countP isMarker ∧
      st.openshiftCiJunit.TestCases.map (fun tc => tc.Name) =
        (listing.filter isMarker).map (stepNameOf objectPrefix)) ∧
    ((∀ n ∈ listing, isMarker n = true → markerOk env objectPrefix n = true) →
      ∃ st, mainLoop env objectPrefix listing initialState = some st) := by
  refine ⟨?_, fun hok => mainLoop_succeeds env objectPrefix listing hno hok initialState⟩
  intro st hst
  obtain ⟨e0, _, e2, e3, _, e5, _, _, _⟩ := mainLoop_effect env objectPrefix listing _ _ hst
  refine ⟨?_, ?_, ?_, ?_⟩
  · rw [e2]
    simp [initialState]
  · rw [e3]
    simp [initialState]
  · rw [e5]
    simp [initialState]
  · rw [e0]
    simp [initialState]

theorem synthesized_suite_counts_witness :
    ∃ st, mainLoop (scenarioEnv "boom".toList []) scenarioPrefix
        [testMarker, testBuildLog, buildMarker, gatherMarker] initialState = some st ∧
      st.openshiftCiJunit.Tests = 3 ∧
      st.openshiftCiJunit.Failures = 1 ∧
      st.openshiftCiJunit.TestCases.length = 3 ∧
      st.openshiftCiJunit.TestCases.map (fun tc => tc.Name) =
        ["test".toList, "build".toList, "gather-extra".toList] := by
  have h := synthesized_suite_counts (scenarioEnv "boom".toList []) scenarioPrefix
    [testMarker, testBuildLog, buildMarker, gatherMarker] (by decide)
  obtain ⟨st, hst⟩ := h.2 (by decide)
  exact ⟨st, hst, h.1 st hst⟩

/-- Without embedded report the aggregate holds the synthesized suite alone,
and its own counters are never written: they keep their initial value 0. -/
theorem aggregate_without_report (env : Env) (objectPrefix : Str) (listing : List Str)
    (out : JUnitTestSuites) (hno : ∀ n ∈ listing, isReport n = false)
    (h : aggregate env objectPrefix listing = some out) :
    out.Tests = 0 ∧ out.Failures = 0 ∧ out.Errors = 0 ∧
    ∃ suite, out.TestSuites = [suite] ∧ suite.Tests = (listing.countP isMarker : Nat) := by
  unfold aggregate at h
  cases hst : mainLoop env objectPrefix listing initialState with
  | none => simp [hst] at h
  | some st =>
    simp only [hst, Option.map_some', Option.some.injEq] at h
    obtain ⟨_, _, e2, _, _, _, _, _, e8⟩ := mainLoop_effect env objectPrefix listing _ _ hst
    have e := e8 hno
    subst h
    refine ⟨?_, ?_, ?_, st.openshiftCiJunit, ?_, ?_⟩
    · simp [appendSynthesized, e, initialState]
    · simp [appendSynthesized, e, initialState]
    · simp [appendSynthesized, e, initialState]
    · simp [appendSynthesized, e, initialState]
    · rw [e2]
      simp [initialState]

/-- C2, at the run with the markers `build` (passed) and `test` (failed) and
no embedded report: the written aggregate holds the synthesized suite alone,
with 2 tests and 1 failure, and the counters of the aggregate itself are 0. -/
theorem top_level_counters_without_report :
    main (scenarioEnv "boom".toList [buildMarker, testMarker]) = some
      { Tests := 0, Errors := 0, Failures := 0
        TestSuites :=
          [{ Name := "openshift-ci job".toList, Tests := 2, Failures := 1, Errors := 0
             Properties := []
             TestCases :=
               [stepCase "build".toList true [], stepCase "test".toList false "boom".toList] }] } := by
  decide

/-- The turn of an embedded report stores the `tests` attribute of the report
in the aggregate whatever the aggregate held before: the counters of the
synthesized suite added just before the decoding do not survive it. -/
theorem report_counters_replace (env : Env) (objectPrefix : Str) (st st1 : LoopState)
    (name : Str) (doc : JUnitDocument) (t : Int)
    (h : asEmbeddedReport env objectPrefix st name = some st1)
    (hd : documentOf env name = some doc) (ht : doc.tests = some t) :
    st1.rhtapJunitSuites.Tests = t ∧
    st1.rhtapJunitSuites.TestSuites = st.rhtapJunitSuites.TestSuites ++ doc.suites := by
  obtain ⟨doc1, hd1, _, e2⟩ := asEmbeddedReport_inv env objectPrefix st st1 name h
  rw [hd] at hd1
  have e : doc1 = doc := (Option.some.inj hd1).symm
  subst e
  rw [e2]
  simp [decodeInto, ht]

/-- C3, at the run that lists the marker `build`, the embedded report (3
tests, 1 failure, its counters the sums over its one suite) and the marker
`test`: the counters of the written aggregate are those of the embedded report,
3 tests and 1 failure, while its suites sum to 5 tests and 2 failures. -/
theorem top_level_counters_with_report :
    embeddedDocument.tests = some (sumOver (fun x => x.Tests) embeddedDocument.suites) ∧
    embeddedDocument.failures = some (sumOver (fun x => x.Failures) embeddedDocument.suites) ∧
    embeddedDocument.errors = some (sumOver (fun x => x.Errors) embeddedDocument.suites) ∧
    ∃ out, main (scenarioEnv "boom".toList [buildMarker, embeddedReport, testMarker]) = some out ∧
      out.TestSuites.map (fun x => x.Name) = ["e2e".toList, "openshift-ci job".toList] ∧
      out.Tests = 3 ∧ sumOver (fun x => x.Tests) out.TestSuites = 5 ∧
      out.Failures = 1 ∧ sumOver (fun x => x.Failures) out.TestSuites = 2 := by
  refine ⟨by decide, by decide, by decide, _, rfl, ?_⟩
  decide

/-- C9: in every run that reaches the writing of `junit.xml`, the suites of the
written aggregate are the suites of the embedded reports in listing order,
followed by the synthesized suite `openshift-ci job` as the loop left it after
the last listed object, appended once. -/
theorem suites_order (env : Env) (out : JUnitTestSuites) (h : main env = some out) :
    ∃ objectPrefix listing st,
      env.listObjects objectPrefix = some listing ∧
      mainLoop env objectPrefix listing initialState = some st ∧
      st.openshiftCiJunit.Name = "openshift-ci job".toList ∧
      out.TestSuites = embeddedSuites env listing ++ [st.openshiftCiJunit] := by
  unfold main at h
  cases hj : env.getProwJobYAML with
  | none => simp [hj] at h
  | some pjYAML =>
    simp only [hj] at h
    cases ht : determineJobTarget pjYAML with
    | error msg => simp [ht] at h
    | fatal => simp [ht] at h
    | ok jobTarget =>
      simp only [ht] at h
      cases hp : deriveObjectPrefix pjYAML.URL jobTarget with
      | none => simp [hp] at h
      | some objectPrefix =>
        simp only [hp] at h
        cases hl : env.listObjects objectPrefix with
        | none => simp [hl] at h
        | some listing =>
          simp only [hl, aggregate] at h
          cases hst : mainLoop env objectPrefix listing initialState with
          | none => simp [hst] at h
          | some st =>
            simp only [hst, Option.map_some', Option.some.injEq] at h
            obtain ⟨_, e1, _, _, _, _, _, e7, _⟩ :=
              mainLoop_effect env objectPrefix listing _ _ hst
            refine ⟨objectPrefix, listing, st, hl, hst, ?_, ?_⟩
            · rw [e1]
              rfl
            · rw [← h]
              simp [appendSynthesized, e7, initialState]

theorem suites_order_witness :
    ∃ objectPrefix listing st,
      (scenarioEnv "boom".toList [buildMarker, embeddedReport, testMarker]).listObjects
        objectPrefix = some listing ∧
      mainLoop (scenarioEnv "boom".toList [buildMarker, embeddedReport, testMarker])
        objectPrefix listing initialState = some st ∧
      st.openshiftCiJunit.Name = "openshift-ci job".toList ∧
      [embeddedSuite,
        { Name := "openshift-ci job".toList, Tests := 2, Failures := 1, Errors := 0
          Properties := []
          TestCases :=
            [stepCase "build".toList true [], stepCase "test".toList false "boom".toList] }]
        = embeddedSuites (scenarioEnv "boom".toList [buildMarker, embeddedReport, testMarker])
            listing ++ [st.openshiftCiJunit] :=
  suites_order (scenarioEnv "boom".toList [buildMarker, embeddedReport, testMarker])
    { Tests := 3, Errors := 0, Failures := 1
      TestSuites :=
        [embeddedSuite,
          { Name := "openshift-ci job".toList, Tests := 2, Failures := 1, Errors := 0
            Properties := []
            TestCases :=
              [stepCase "build".toList true [], stepCase "test".toList false "boom".toList] }] }
    (by decide)

theorem processObject_marker_ok (env : Env) (objectPrefix : Str) (st : LoopState)
    (name a b data : Str) (p : Bool) (log : Str)
    (hm : Contains name finishedFilename = true)
    (hs : Split name objectPrefix = [a, b]) (hr : env.readObject name = some data)
    (hu : env.unmarshalFinished data = some { Passed := some p })
    (hl : p = false →
      env.readObject (TrimSuffix name finishedFilename ++ buildLogFilename) = some log) :
    ∃ st1, processObject env objectPrefix st name = some st1 ∧
      MarkerEffect st st1 name ((TrimPrefix b "/".toList).takeWhile (fun d => d != '/')) p log := by
  rw [processObject_dispatch, if_pos hm]
  exact asCompletionMarker_ok env objectPrefix st name a b data p log hs hr hu hl

/-- C4: a completion marker `<dir>finished.json` that decodes to
`passed = true` adds a test case with status `passed`, no failure element and
empty captured log; one that decodes to `passed = false` adds a test case with
status `failed`, the failure message `<step name> has failed` and, as captured
system-error text, the whole body of `<dir>build-log.txt`, and counts as one
failure.  The run of the markers `build/finished.json` (pass) and
`test/finished.json` (fail) writes one suite with 2 tests and 1 failure whose
case `test` carries the body of `test/build-log.txt`. -/
theorem marker_test_case (env : Env) (objectPrefix : Str) (st : LoopState)
    (dir a b data : Str)
    (hs : Split (dir ++ finishedFilename) objectPrefix = [a, b])
    (hr : env.readObject (dir ++ finishedFilename) = some data) :
    (env.unmarshalFinished data = some { Passed := some true } →
      ∃ st1, processObject env objectPrefix st (dir ++ finishedFilename) = some st1 ∧
        st1.openshiftCiJunit.Failures = st.openshiftCiJunit.Failures ∧
        st1.openshiftCiJunit.TestCases = st.openshiftCiJunit.TestCases ++
          [{ Name := (TrimPrefix b "/".toList).takeWhile (fun d => d != '/')
             Status := "passed".toList, Failure := none, SystemErr := [] }]) ∧
    (∀ log, env.unmarshalFinished data = some { Passed := some false } →
      env.readObject (dir ++ buildLogFilename) = some log →
      ∃ st1, processObject env objectPrefix st (dir ++ finishedFilename) = some st1 ∧
        st1.openshiftCiJunit.Failures = st.openshiftCiJunit.Failures + 1 ∧
        st1.openshiftCiJunit.TestCases = st.openshiftCiJunit.TestCases ++
          [{ Name := (TrimPrefix b "/".toList).takeWhile (fun d => d != '/')
             Status := "failed".toList
             Failure := some
               { Message := (TrimPrefix b "/".toList).takeWhile (fun d => d != '/') ++
                   " has failed".toList }
             SystemErr := log }]) ∧
    (∀ log, main (scenarioEnv log [buildMarker, testMarker]) = some
      { Tests := 0, Errors := 0, Failures := 0
        TestSuites :=
          [{ Name := "openshift-ci job".toList, Tests := 2, Failures := 1, Errors := 0
             Properties := []
             TestCases :=
               [{ Name := "build".toList, Status := "passed".toList, Failure := none
                  SystemErr := [] },
                { Name := "test".toList, Status := "failed".toList
                  Failure := some { Message := "test has failed".toList }
                  SystemErr := log }] }] }) := by
  have hm : Contains (dir ++ finishedFilename) finishedFilename = true :=
    Contains_of_HasSuffix dir finishedFilename
  refine ⟨?_, ?_, fun log => rfl⟩
  · intro hu
    obtain ⟨st1, h1, _, _, _, c4, _, c6, _⟩ :=
      processObject_marker_ok env objectPrefix st _ a b data true [] hm hs hr hu (by simp)
    exact ⟨st1, h1, by simpa using c4, c6⟩
  · intro log hu hlog
    obtain ⟨st1, h1, _, _, _, c4, _, c6, _⟩ :=
      processObject_marker_ok env objectPrefix st _ a b data false log hm hs hr hu
        (fun _ => by rw [TrimSuffix_append]; exact hlog)
    exact ⟨st1, h1, by simpa using c4, c6⟩

theorem marker_test_case_witness :
    ∃ st1, processObject (scenarioEnv "boom".toList []) scenarioPrefix initialState
        ("logs/job/1/artifacts/e2e/test/".toList ++ finishedFilename) = some st1 ∧
      st1.openshiftCiJunit.Failures = initialState.openshiftCiJunit.Failures + 1 ∧
      st1.openshiftCiJunit.TestCases = initialState.openshiftCiJunit.TestCases ++
        [{ Name := "test".toList, Status := "failed".toList
           Failure := some { Message := "test has failed".toList }
           SystemErr := "boom".toList }] :=
  (marker_test_case (scenarioEnv "boom".toList []) scenarioPrefix initialState
    "logs/job/1/artifacts/e2e/test/".toList [] "/test/finished.json".toList
    "passed: false".toList (by decide) (by decide)).2.1 "boom".toList (by decide) (by decide)

theorem takeWhile_until (c : Char) (s rest : Str) (h : c ∉ s) :
    (s ++ c :: rest).takeWhile (fun d => d != c) = s := by
  induction s with
  | nil => simp
  | cons d s ih =>
    simp only [List.mem_cons, not_or] at h
    have hd : (d != c) = true := by
      simpa using fun e : d = c => h.1 e.symm
    simp [List.takeWhile_cons, hd, ih h.2]

theorem Split_of_occurrences_one (sep name a b : Str) (hsep : sep ≠ [])
    (hname : name = a ++ sep ++ b) (hocc : occurrences sep name = 1) :
    Split name sep = [a, b] := by
  rw [hname] at hocc
  have := splitLoop_of_occurrences_one sep a b [] hsep hocc
  simpa [Split, hsep, hname] using this

/-- C5: a completion marker whose name contains the object prefix exactly
once adds a test case named after the first `/`-separated segment of the path
of the marker relative to the prefix, that is of what follows the prefix in
the name, one leading `/` dropped.  In particular the marker
`<objectPrefix>/s/finished.json`, `s` without `/`, adds a test case named `s`. -/
theorem step_name_first_segment (env : Env) (objectPrefix : Str) (st : LoopState)
    (name data : Str) (p : Bool) (log : Str)
    (hne : objectPrefix ≠ [])
    (hm : Contains name finishedFilename = true)
    (hocc : occurrences objectPrefix name = 1)
    (hr : env.readObject name = some data)
    (hu : env.unmarshalFinished data = some { Passed := some p })
    (hl : p = false →
      env.readObject (TrimSuffix name finishedFilename ++ buildLogFilename) = some log) :
    ∃ st1 tc, processObject env objectPrefix st name = some st1 ∧
      st1.openshiftCiJunit.TestCases = st.openshiftCiJunit.TestCases ++ [tc] ∧
      (∀ a b : Str, name = a ++ objectPrefix ++ b →
        tc.Name = (TrimPrefix b "/".toList).takeWhile (fun d => d != '/')) ∧
      (∀ s : Str, '/' ∉ s →
        name = objectPrefix ++ "/".toList ++ s ++ "/".toList ++ finishedFilename →
        tc.Name = s) := by
  have hc0 : Contains name objectPrefix = true := by
    by_contra hc
    simp only [Bool.not_eq_true] at hc
    have := (occurrences_eq_zero_iff _ _).2 hc
    omega
  obtain ⟨a0, b0, hname0⟩ := (Contains_eq_true_iff _ _).1 hc0
  have hs0 := Split_of_occurrences_one objectPrefix name a0 b0 hne hname0 hocc
  obtain ⟨st1, h1, _, _, _, _, _, c6, _⟩ :=
    processObject_marker_ok env objectPrefix st name a0 b0 data p log hm hs0 hr hu hl
  have hc : ∀ x : Str, (stepCase x p log).Name = x := by
    intro x
    cases p <;> rfl
  have hab : ∀ a b : Str, name = a ++ objectPrefix ++ b →
      (stepCase ((TrimPrefix b0 "/".toList).takeWhile (fun d => d != '/')) p log).Name
        = (TrimPrefix b "/".toList).takeWhile (fun d => d != '/') := by
    intro a b hname
    have hs := Split_of_occurrences_one objectPrefix name a b hne hname hocc
    rw [hs0] at hs
    simp only [List.cons.injEq, and_true] at hs
    rw [hc, hs.2]
  refine ⟨st1, _, h1, c6, hab, ?_⟩
  intro s hs1 hn
  have e : name = [] ++ objectPrefix ++ ("/".toList ++ (s ++ '/' :: finishedFilename)) := by
    rw [hn]
    simp
  rw [hab [] _ e, TrimPrefix_append]
  exact takeWhile_until '/' s finishedFilename hs1

theorem step_name_first_segment_witness :
    ∃ st1 tc,
      processObject (scenarioEnv [] []) scenarioPrefix initialState gatherMarker = some st1 ∧
      st1.openshiftCiJunit.TestCases = initialState.openshiftCiJunit.TestCases ++ [tc] ∧
      tc.Name = "gather-extra".toList := by
  obtain ⟨st1, tc, h1, h2, _, h4⟩ :=
    step_name_first_segment (scenarioEnv [] []) scenarioPrefix initialState gatherMarker
      "passed: true".toList true [] (by decide) (by decide) (by decide) (by decide) (by decide)
      (by decide)
  exact ⟨st1, tc, h1, h2, h4 "gather-extra".toList (by decide) (by decide)⟩

theorem TrimPrefix_suffix (s p : Str) : ∃ pre, s = pre ++ TrimPrefix s p := by
  by_cases h : HasPrefix s p = true
  · obtain ⟨t, ht⟩ := (HasPrefix_eq_true_iff _ _).1 h
    refine ⟨p, ?_⟩
    rw [ht, TrimPrefix_append]
  · exact ⟨[], by simp [TrimPrefix, h]⟩

theorem Contains_of_infix (l m r substr : Str) (h : Contains m substr = true) :
    Contains (l ++ m ++ r) substr = true := by
  obtain ⟨x, y, hxy⟩ := (Contains_eq_true_iff _ _).1 h
  exact (Contains_eq_true_iff _ _).2 ⟨l ++ x, y ++ r, by simp [hxy]⟩

theorem Split_pair_nonempty_sep (name sep a b : Str) (hlen : 2 < name.length)
    (h : Split name sep = [a, b]) : sep ≠ [] := by
  intro hsep
  have hl := congrArg List.length h
  simp [Split, hsep] at hl
  omega

/-- The text of the step name is part of the object name, so a marker of a
step named with `gather` passes the test of line 113. -/
theorem Contains_gather_of_step (objectPrefix name a b : Str) (hne : objectPrefix ≠ [])
    (hs : Split name objectPrefix = [a, b])
    (hg : Contains ((TrimPrefix b "/".toList).takeWhile (fun d => d != '/'))
      "gather".toList = true) :
    Contains name "gather".toList = true := by
  obtain ⟨hname, _⟩ := Split_pair name objectPrefix a b hne hs
  obtain ⟨pre, hpre⟩ := TrimPrefix_suffix b "/".toList
  have ht := List.takeWhile_append_dropWhile (fun d => d != '/') (TrimPrefix b "/".toList)
  have e : name = (a ++ objectPrefix ++ pre) ++
      (TrimPrefix b "/".toList).takeWhile (fun d => d != '/') ++
      (TrimPrefix b "/".toList).dropWhile (fun d => d != '/') := by
    rw [List.append_assoc _ (List.takeWhile _ _), ht, List.append_assoc, ← hpre]
    exact hname
  rw [e]
  exact Contains_of_infix _ _ _ _ hg

/-- C8, as the program has it: the `gather` test of line 113 is made on the
whole object name.  A completion marker `<dir>finished.json` whose object name,
the object prefix included, contains `gather` adds, passed or failed, exactly
one property to the synthesized suite, named after its step and valued
`gcsBrowserURLPrefix ++ <dir> ++ "artifacts"`; every marker of a step whose
name contains `gather` is such a marker; a marker whose object name does not
contain `gather` leaves the properties as they are; so at the end of the loop
the suite has as many properties as the listing has markers whose object name
contains `gather`. -/
theorem gather_property (env : Env) (objectPrefix : Str) (st : LoopState)
    (dir a b data : Str) (p : Bool) (log : Str)
    (hs : Split (dir ++ finishedFilename) objectPrefix = [a, b])
    (hr : env.readObject (dir ++ finishedFilename) = some data)
    (hu : env.unmarshalFinished data = some { Passed := some p })
    (hl : p = false → env.readObject (dir ++ buildLogFilename) = some log) :
    (∃ st1, processObject env objectPrefix st (dir ++ finishedFilename) = some st1 ∧
      (Contains (dir ++ finishedFilename) "gather".toList = true →
        st1.openshiftCiJunit.Properties = st.openshiftCiJunit.Properties ++
          [{ Name := (TrimPrefix b "/".toList).takeWhile (fun d => d != '/')
             Value := gcsBrowserURLPrefix ++ dir ++ "artifacts".toList }]) ∧
      (isGatherStep objectPrefix (dir ++ finishedFilename) = true →
        st1.openshiftCiJunit.Properties = st.openshiftCiJunit.Properties ++
          [{ Name := stepNameOf objectPrefix (dir ++ finishedFilename)
             Value := gcsBrowserURLPrefix ++ dir ++ "artifacts".toList }]) ∧
      (Contains (dir ++ finishedFilename) "gather".toList = false →
        st1.openshiftCiJunit.Properties = st.openshiftCiJunit.Properties)) ∧
    (∀ listing stEnd, mainLoop env objectPrefix listing initialState = some stEnd →
      stEnd.openshiftCiJunit.Properties.length = listing.countP gatherInObjectName) := by
  have hm : Contains (dir ++ finishedFilename) finishedFilename = true :=
    Contains_of_HasSuffix dir finishedFilename
  have hne : objectPrefix ≠ [] := by
    refine Split_pair_nonempty_sep (dir ++ finishedFilename) objectPrefix a b ?_ hs
    have : finishedFilename.length = 13 := by decide
    rw [List.length_append, this]
    omega
  have hstep : stepNameOf objectPrefix (dir ++ finishedFilename)
      = (TrimPrefix b "/".toList).takeWhile (fun d => d != '/') := by
    simp only [stepNameOf, hs]
  refine ⟨?_, ?_⟩
  · obtain ⟨st1, h1, _, _, _, _, _, _, c7⟩ :=
      processObject_marker_ok env objectPrefix st _ a b data p log hm hs hr hu
        (fun e => by rw [TrimSuffix_append]; exact hl e)
    rw [TrimSuffix_append] at c7
    refine ⟨st1, h1, ?_, ?_, ?_⟩
    · intro hg
      rw [c7, if_pos hg]
    · intro hg
      have hg1 : Contains (dir ++ finishedFilename) "gather".toList = true := by
        apply Contains_gather_of_step objectPrefix _ a b hne hs
        rw [← hstep]
        exact hg
      rw [c7, if_pos hg1, hstep]
    · intro hg
      rw [c7, if_neg (by rw [hg]; exact Bool.false_ne_true)]
      simp
  · intro listing stEnd hEnd
    obtain ⟨_, _, _, _, _, _, e6, _, _⟩ := mainLoop_effect env objectPrefix listing _ _ hEnd
    rw [e6]
    simp [initialState]

theorem gather_property_witness :
    isGatherStep scenarioPrefix gatherMarker = true ∧
    ∃ st1, processObject (scenarioEnv [] []) scenarioPrefix initialState gatherMarker
        = some st1 ∧
      st1.openshiftCiJunit.Properties =
        [{ Name := "gather-extra".toList
           Value := ("https://gcsweb-ci.apps.ci.l2s4.p1.openshiftapps.com/gcs/origin-ci-test/" ++
             "logs/job/1/artifacts/e2e/gather-extra/artifacts").toList }] := by
  obtain ⟨⟨st1, h1, _, h3, _⟩, _⟩ :=
    gather_property (scenarioEnv [] []) scenarioPrefix initialState
      "logs/job/1/artifacts/e2e/gather-extra/".toList [] "/gather-extra/finished.json".toList
      "passed: true".toList true [] (by decide) (by decide) (by decide) (by decide)
  exact ⟨by decide, st1, h1, h3 (by decide)⟩

set_option maxRecDepth 20000 in
/-- C8 as stated fails: in a job of the repository `openshift/must-gather` the
marker of the step `build`, which is no `gather` step, adds a property named
`build`, because its object name contains `must-gather`; the loop over that one
marker ends with one property while the listing has no marker of a `gather`
step. -/
theorem gather_step_property_fails :
    isMarker mustGatherBuildMarker = true ∧
    stepNameOf mustGatherPrefix mustGatherBuildMarker = "build".toList ∧
    isGatherStep mustGatherPrefix mustGatherBuildMarker = false ∧
    (processObject (scenarioEnv [] []) mustGatherPrefix initialState mustGatherBuildMarker).map
        (fun st => st.openshiftCiJunit.Properties) = some
      [{ Name := "build".toList
         Value := ("https://gcsweb-ci.apps.ci.l2s4.p1.openshiftapps.com/gcs/origin-ci-test/" ++
           "pr-logs/pull/openshift_must-gather/7/job/1/artifacts/e2e/build/artifacts").toList }] ∧
    (mainLoop (scenarioEnv [] []) mustGatherPrefix [mustGatherBuildMarker] initialState).map
        (fun st => st.openshiftCiJunit.Properties.length) = some 1 ∧
    [mustGatherBuildMarker].countP (fun n => isMarker n && isGatherStep mustGatherPrefix n)
      = 0 := by
  decide

theorem HasSuffix_eq_true (s suffix : Str) (h : HasSuffix s suffix = true) :
    ∃ d, s = d ++ suffix := by
  obtain ⟨t, ht⟩ := (HasPrefix_eq_true_iff _ _).1 h
  refine ⟨t.reverse, ?_⟩
  have := congrArg List.reverse ht
  simpa using this

/-- C10, as the program has it: the role of a listed object is decided by
containment.  The object is processed as a completion marker exactly when its
name contains `finished.json`, as an embedded report exactly when its name
contains `e2e-report.xml` and does not contain `finished.json`, and is ignored,
the state left as it is, exactly when its name contains neither; every name has
one role.  A name that ends in `finished.json` is a completion marker. -/
theorem classification_by_containment (env : Env) (objectPrefix : Str) (st : LoopState)
    (name : Str) :
    processObject env objectPrefix st name = processAs env objectPrefix st name (roleOf name) ∧
    (roleOf name = Role.completionMarker ↔ Contains name finishedFilename = true) ∧
    (roleOf name = Role.embeddedReport ↔
      Contains name junitFilename = true ∧ Contains name finishedFilename = false) ∧
    (roleOf name = Role.ignored ↔
      Contains name finishedFilename = false ∧ Contains name junitFilename = false) ∧
    (HasSuffix name finishedFilename = true → roleOf name = Role.completionMarker) ∧
    (roleOf name = Role.ignored → processObject env objectPrefix st name = some st) := by
  have hd := processObject_dispatch env objectPrefix st name
  have hsuf : HasSuffix name finishedFilename = true → Contains name finishedFilename = true := by
    intro h
    obtain ⟨d, hd1⟩ := HasSuffix_eq_true _ _ h
    rw [hd1]
    exact Contains_of_HasSuffix d finishedFilename
  by_cases hf : Contains name finishedFilename = true
  · have hr : roleOf name = Role.completionMarker := by simp only [roleOf, hf, if_true]
    refine ⟨by rw [hd, hr, if_pos hf]; rfl, by simp [hr, hf], by simp [hr, hf], by simp [hr, hf],
      fun _ => hr, by simp [hr]⟩
  · simp only [Bool.not_eq_true] at hf
    by_cases hj : Contains name junitFilename = true
    · have hr : roleOf name = Role.embeddedReport := by
        simp only [roleOf, hf, hj, Bool.false_eq_true, if_false, if_true]
      refine ⟨by rw [hd, hr, if_neg (by simp [hf]), if_pos hj]; rfl, by simp [hr, hf],
        by simp [hr, hf, hj], by simp [hr, hj], ?_, by simp [hr]⟩
      intro h
      rw [hsuf h] at hf
      exact absurd hf (by simp)
    · simp only [Bool.not_eq_true] at hj
      have hr : roleOf name = Role.ignored := by
        simp only [roleOf, hf, hj, Bool.false_eq_true, if_false]
      have hp : processObject env objectPrefix st name = some st := by
        rw [hd, if_neg (by simp [hf]), if_neg (by simp [hj])]
      refine ⟨by rw [hp, hr]; rfl, by simp [hr, hf], by simp [hr, hj], by simp [hr, hf, hj],
        ?_, fun _ => hp⟩
      intro h
      rw [hsuf h] at hf
      exact absurd hf (by simp)

theorem classification_by_containment_witness :
    HasSuffix buildMarker finishedFilename = true ∧
    roleOf buildMarker = Role.completionMarker ∧
    roleOf embeddedReport = Role.embeddedReport ∧
    roleOf testBuildLog = Role.ignored ∧
    processObject (scenarioEnv [] []) scenarioPrefix initialState testBuildLog
      = some initialState :=
  ⟨by decide,
    (classification_by_containment (scenarioEnv [] []) scenarioPrefix initialState
      buildMarker).2.2.2.2.1 (by decide),
    by decide, by decide,
    (classification_by_containment (scenarioEnv [] []) scenarioPrefix initialState
      testBuildLog).2.2.2.2.2 (by decide)⟩

/-- C10 as stated fails: `build/finished.json.bak` does not end in
`finished.json` and is processed as a completion marker (one more test), and
`finished.json.d/e2e-report.xml` ends in `e2e-report.xml` and is processed as
a completion marker too, not as an embedded report. -/
theorem classification_by_suffix_fails :
    (HasSuffix backupMarker finishedFilename = false ∧
      roleOf backupMarker = Role.completionMarker ∧
      (processObject (scenarioEnv [] []) scenarioPrefix initialState backupMarker).map
        (fun st => st.openshiftCiJunit.Tests) = some 1) ∧
    (HasSuffix nestedReport junitFilename = true ∧
      roleOf nestedReport = Role.completionMarker ∧
      (processObject (scenarioEnv [] []) scenarioPrefix initialState nestedReport).map
        (fun st => (st.openshiftCiJunit.Tests, st.rhtapJunitSuites.TestSuites.length))
        = some (1, 0)) := by
  decide

/-- C6 as stated fails: with `--target-additional-suffix=1` listed before
`--target=e2e` the result is `1` and not `e2e`; `--target=a=b` ends the
process instead of returning `a=b`; and with the only candidate `--target`
(no `=`) the process ends in `log.Fatal`, no error value is returned. -/
theorem determineJobTarget_first_target_fails :
    determineJobTarget
        { PodSpec := some [{ Args := ["--target-additional-suffix=1".toList,
            "--target=e2e".toList] }], URL := [] } = TargetResult.ok "1".toList ∧
    determineJobTarget
        { PodSpec := some [{ Args := ["--target=a=b".toList] }], URL := [] }
      = TargetResult.fatal ∧
    determineJobTarget
        { PodSpec := some [{ Args := ["--target".toList] }], URL := [] }
      = TargetResult.fatal := by
  decide

theorem determineJobTarget_spec_witness :
    determineJobTarget scenarioJob = TargetResult.ok "e2e".toList :=
  ((determineJobTarget_spec scenarioJob { Args := ["--secret-dir=/secrets".toList,
      "--target=e2e".toList] } [] (by decide)).2 ["--secret-dir=/secrets".toList]
    "--target=e2e".toList [] (by decide) (by decide) (by decide)).1 "e2e".toList
    (by decide) (by decide)

theorem deriveObjectPrefix_spec_witness :
    occurrences bucketName scenarioJob.URL = 1 ∧
    deriveObjectPrefix scenarioJob.URL "e2e".toList = some scenarioPrefix :=
  ⟨by decide,
    (deriveObjectPrefix_spec scenarioJob.URL "e2e".toList).2
      "https://prow.ci.openshift.org/view/gs/".toList "/logs/job/1".toList
      (by decide) (by decide)⟩

end CiTestReporter
